import Mathlib

/-!
Verification of the prerequisite-formula minimizer in `src/logic.rs`.

The embedding follows the source closely:
* `Symbol` (a `u32` handle) becomes `ℕ`.
* `Sum` (a `BTreeSet<Symbol>`, one disjunctive clause) becomes `Clause := Finset ℕ`.
* `Product` (a `Vec<Sum>`, a conjunction of clauses) becomes `List Clause`.
* `Products` (a `HashMap<Symbol, Product>`) becomes an association list
  `List (ℕ × List Clause)`; `Products::get` is first-match lookup, and theorems
  that depend on the map having unique keys take a `Nodup` hypothesis on the keys.
* The `BinaryHeap<Lhs>` in `Products::implies` pops an element maximal under
  `Reverse(rhs_difference)`, i.e. one of minimal set-difference from `rhs`, with
  ties broken arbitrarily; we model the pop with `List.argmin`.
* Both `while` loops (`implies`'s worklist and `minimize`'s fixed-point loop)
  are modelled with explicit fuel returning `Option`, where `none` means the
  fuel ran out; we prove the fuel chosen in the wrappers always suffices.
-/

namespace Cab

/-- `Symbol(u32)` from logic.rs; the wrapper is modelled by `ℕ` itself. -/
abbrev Symbol := ℕ

/-- `Sum` from logic.rs: a `BTreeSet<Symbol>`, one disjunctive clause. -/
abbrev Clause := Finset ℕ

/-- `Product` from logic.rs: a `Vec<Sum>`, a conjunction of clauses. -/
abbrev Product := List Clause

/-- `Products` from logic.rs: a `HashMap<Symbol, Product>`, modelled as an
association list. -/
abbrev Products := List (ℕ × Product)

/-- `Products::get`: first-match lookup, as `HashMap::get`. -/
def Products.get (ps : Products) (s : ℕ) : Option Product :=
  List.lookup s ps

/-- `Product::and_identity()`: the empty clause list. -/
def Product.andIdentity : Product := []

/-- `Product::or_identity()`: the single empty clause. -/
def Product.orIdentity : Product := [∅]

/-- `impl BitAnd for Product`: `self.0.append(&mut other.0)`. -/
def prodAnd (p q : Product) : Product := p ++ q

/-- `impl BitOr for &Product`: every clause of the left united with every
clause of the right, in iteration order. -/
def prodOr (p q : Product) : Product :=
  (p.map fun a => q.map fun b => a ∪ b).flatten

/-- `self.get(s).map(Product::is_empty).unwrap_or(false)` from the child
validity check in `Products::implies`: true iff `s` has an entry whose
formula has no clauses. -/
def hasEmptyEntry (ps : Products) (s : ℕ) : Bool :=
  match Products.get ps s with
  | some p => p.isEmpty
  | none => false

/-- The `child_valid` condition in `Products::implies`: the child is not the
forbidden substitution, has not been seen, and introduces no symbol that is
absent from `rhs` and has an empty-formula entry. -/
def childValid (ps : Products) (rhs : Clause) (disallow : Option (ℕ × ℕ))
    (seen : Finset Clause) (sym i : ℕ) (child : Clause) : Bool :=
  decide (disallow ≠ some (sym, i)) && decide (child ∉ seen) &&
    !(decide (∃ s ∈ child, s ∉ rhs ∧ hasEmptyEntry ps s = true))

/-- `BTreeSet` iteration order: the elements of the clause in ascending
order (`Finset.sort` is avoided only because it does not reduce in the
kernel; this enumeration lists the same elements in the same order). -/
def clauseList (c : Clause) : List ℕ :=
  (List.range (c.sup id + 1)).filter fun s => s ∈ c

/-- The candidates generated from one popped set `cur` in `Products::implies`:
for every `sym ∈ cur` (in `BTreeSet` order) with a database entry, and every
clause of that entry with its index, the set `(cur \ {sym}) ∪ clause`. -/
def substChildren (ps : Products) (cur : Clause) : List (ℕ × ℕ × Clause) :=
  (clauseList cur).flatMap fun sym =>
    match Products.get ps sym with
    | none => []
    | some product =>
        product.enum.map fun ic => (sym, ic.1, cur.erase sym ∪ ic.2)

/-- One conditional push in `Products::implies`: if the child is valid it is
added to `seen` and pushed onto the worklist. -/
def pushChild (ps : Products) (rhs : Clause) (disallow : Option (ℕ × ℕ))
    (acc : Finset Clause × List Clause) (c : ℕ × ℕ × Clause) :
    Finset Clause × List Clause :=
  if childValid ps rhs disallow acc.1 c.1 c.2.1 c.2.2 then
    (insert c.2.2 acc.1, c.2.2 :: acc.2)
  else acc

/-- Processing of one popped set in `Products::implies`: all candidates are
generated and conditionally pushed, threading `seen` and the worklist. -/
def expand (ps : Products) (rhs : Clause) (disallow : Option (ℕ × ℕ))
    (cur : Clause) (acc : Finset Clause × List Clause) :
    Finset Clause × List Clause :=
  (substChildren ps cur).foldl (pushChild ps rhs disallow) acc

/-- `heap.pop()` on the `BinaryHeap<Lhs>`: an element of minimal
`rhs_difference` (the `Ord` instance compares `Reverse(difference)` only, so
ties are broken arbitrarily), removed from the worklist. -/
def popMin (rhs : Clause) (heap : List Clause) : Option (Clause × List Clause) :=
  match heap.argmin fun s => (s \ rhs).card with
  | none => none
  | some c => some (c, heap.erase c)

/-- The `while let Some(..) = heap.pop()` loop of `Products::implies`, with
explicit fuel; `none` means the fuel ran out. -/
def impliesLoop (ps : Products) (rhs : Clause) (disallow : Option (ℕ × ℕ)) :
    ℕ → Finset Clause → List Clause → Option Bool
  | 0, _, _ => none
  | fuel + 1, seen, heap =>
    match popMin rhs heap with
    | none => some false
    | some (cur, rest) =>
      if cur ⊆ rhs then some true
      else
        let acc := expand ps rhs disallow cur (seen, rest)
        impliesLoop ps rhs disallow fuel acc.1 acc.2

/-- All symbols occurring in some clause of some entry of the database. -/
def dbSymbols (ps : Products) : Finset ℕ :=
  (ps.flatMap fun e => e.2).foldr (· ∪ ·) ∅

/-- Every searched candidate set stays inside `lhs` together with the
database's clause symbols. -/
def searchUniverse (ps : Products) (lhs : Clause) : Finset ℕ :=
  lhs ∪ dbSymbols ps

/-- Fuel sufficient for the worklist search: strictly more than the number of
distinct candidate sets that can ever enter `seen`. -/
def impliesFuel (ps : Products) (lhs : Clause) : ℕ :=
  2 ^ (searchUniverse ps lhs).card + 1

/-- `Products::implies` as the fueled loop from the initial state
`seen = {lhs}`, worklist `[lhs]`. -/
def impliesO (ps : Products) (lhs rhs : Clause) (disallow : Option (ℕ × ℕ)) :
    Option Bool :=
  impliesLoop ps rhs disallow (impliesFuel ps lhs) {lhs} [lhs]

/-- `Products::implies`; the fuel is proved sufficient below, so the default
is never taken. -/
def Products.implies (ps : Products) (lhs rhs : Clause)
    (disallow : Option (ℕ × ℕ)) : Bool :=
  (impliesO ps lhs rhs disallow).getD false

/-- `find_thingy` from `Products::minimize`: the first `(symbol, clause
index)` pair whose clause is implied by the symbol with that substitution
forbidden. -/
def findThingy (ps : Products) : Option (ℕ × ℕ) :=
  ps.findSome? fun e =>
    (e.2.enum.find? fun bi => Products.implies ps {e.1} bi.2 (some (e.1, bi.1))).map
      fun bi => (e.1, bi.1)

/-- `self.products.get_mut(&a).unwrap().0.remove(b)`: remove clause `b` of
symbol `a`'s formula. -/
def removeClause (ps : Products) (a b : ℕ) : Products :=
  ps.map fun e => if e.1 = a then (e.1, e.2.eraseIdx b) else e

/-- The `while let Some((a, b)) = find_thingy(self)` loop of
`Products::minimize`, with explicit fuel. -/
def minimizeLoop : ℕ → Products → Option Products
  | 0, _ => none
  | fuel + 1, ps =>
    match findThingy ps with
    | none => some ps
    | some ab => minimizeLoop fuel (removeClause ps ab.1 ab.2)

/-- Total number of clauses in the database. -/
def totalClauses (ps : Products) : ℕ :=
  (ps.map fun e => e.2.length).sum

/-- `Products::minimize`; each loop iteration removes a clause, so
`totalClauses ps + 1` fuel always suffices (proved below). -/
def Products.minimize (ps : Products) : Products :=
  (minimizeLoop (totalClauses ps + 1) ps).getD ps

/-! ### Specification-side relations -/

/-- One substitution step as the specification describes it: replace one
member symbol that has a database entry by the symbols of one clause of that
entry's formula. -/
inductive SubstStep (ps : Products) : Clause → Clause → Prop
  | subst (cur : Clause) (sym : ℕ) (p : Product) (c : Clause)
      (hsym : sym ∈ cur) (hget : Products.get ps sym = some p) (hc : c ∈ p) :
      SubstStep ps cur (cur.erase sym ∪ c)

/-- Finitely many substitution steps. -/
def Reaches (ps : Products) : Clause → Clause → Prop :=
  Relation.ReflTransGen (SubstStep ps)

/-- A substitution step that records the clause index used, and avoids the
forbidden `(symbol, clause index)` pair. -/
inductive SubstStepD (ps : Products) (disallow : Option (ℕ × ℕ)) :
    Clause → Clause → Prop
  | subst (cur : Clause) (sym i : ℕ) (p : Product) (c : Clause)
      (hsym : sym ∈ cur) (hget : Products.get ps sym = some p)
      (hc : p[i]? = some c) (hd : disallow ≠ some (sym, i)) :
      SubstStepD ps disallow cur (cur.erase sym ∪ c)

/-- Finitely many indexed substitution steps avoiding `disallow`. -/
def ReachesD (ps : Products) (disallow : Option (ℕ × ℕ)) :
    Clause → Clause → Prop :=
  Relation.ReflTransGen (SubstStepD ps disallow)

/-- A candidate set containing a symbol that is absent from `rhs` and has an
empty-formula entry: exactly the sets the search discards. -/
def DeadSym (ps : Products) (rhs : Clause) (t : Clause) : Prop :=
  ∃ s ∈ t, s ∉ rhs ∧ hasEmptyEntry ps s = true

/-- A path to a subset of `rhs` whose states strictly after the start avoid
`seen`; the completeness invariant of the worklist search. -/
inductive FreshPath (ps : Products) (disallow : Option (ℕ × ℕ)) (rhs : Clause)
    (seen : Finset Clause) : Clause → Prop
  | done (s : Clause) (h : s ⊆ rhs) : FreshPath ps disallow rhs seen s
  | step (s t : Clause) (hst : SubstStepD ps disallow s t) (ht : t ∉ seen)
      (hp : FreshPath ps disallow rhs seen t) : FreshPath ps disallow rhs seen s

/-- What is known about a candidate newly inserted by the pushing fold: it
passed `childValid` at some point, so it was unseen, not a dead end, and not
the forbidden substitution. -/
def PushedNew (ps : Products) (rhs : Clause) (d : Option (ℕ × ℕ))
    (cs : List (ℕ × ℕ × Clause)) (seen0 : Finset Clause) (x : Clause) : Prop :=
  x ∉ seen0 ∧ ¬DeadSym ps rhs x ∧ ∃ sym i, (sym, i, x) ∈ cs ∧ d ≠ some (sym, i)

/-! ### CNF semantics and the fixed-point step of minimize -/

/-- CNF semantics of one clause: a disjunction of its symbols. -/
def clauseSat (v : ℕ → Bool) (c : Clause) : Prop := ∃ s ∈ c, v s = true

/-- CNF semantics of a formula: a conjunction of its clauses. -/
def productSat (v : ℕ → Bool) (p : Product) : Prop := ∀ c ∈ p, clauseSat v c

/-- Semantics of the whole database: whenever a symbol with an entry holds,
its entry's formula holds. -/
def dbSat (ps : Products) (v : ℕ → Bool) : Prop :=
  ∀ e ∈ ps, v e.1 = true → productSat v e.2

instance decClauseSat (v : ℕ → Bool) (c : Clause) : Decidable (clauseSat v c) :=
  inferInstanceAs (Decidable (∃ s ∈ c, v s = true))

instance decProductSat (v : ℕ → Bool) (p : Product) : Decidable (productSat v p) :=
  inferInstanceAs (Decidable (∀ c ∈ p, clauseSat v c))

instance decDbSat (ps : Products) (v : ℕ → Bool) : Decidable (dbSat ps v) :=
  inferInstanceAs (Decidable (∀ e ∈ ps, v e.1 = true → productSat v e.2))

/-- One iteration of the minimize loop as the specification describes it:
remove the clause at index `b` of symbol `a`'s formula when the oracle, with
the substitution `(a, b)` forbidden, reports it implied by `{a}`. -/
def MinStep (ps qs : Products) : Prop :=
  ∃ a b p r, Products.get ps a = some p ∧ p[b]? = some r ∧
    Products.implies ps {a} r (some (a, b)) = true ∧ qs = removeClause ps a b

/-! ### The generic requirement trees fed to the top-level `minimize` -/

/-- The shape a type implementing `IntoProduct` exposes through `node`,
`all` and `any` (no implementor exists under `src/`; this is the generic
tree those constructors build). -/
inductive STree where
  | node : ℕ → STree
  | all : List STree → STree
  | any : List STree → STree

/-- The symbol-interning state (`SymbolMap`/`Visitor` in logic.rs): the map
from names to symbols and the `next` counter. -/
structure Visitor where
  map : List (ℕ × ℕ)
  next : ℕ

/-- `Visitor::symbol`: look the name up, interning a fresh symbol
(`next + 1`, pre-incremented) on first sight. -/
def Visitor.symbol (vis : Visitor) (n : ℕ) : ℕ × Visitor :=
  match List.lookup n vis.map with
  | some s => (s, vis)
  | none => (vis.next + 1, ⟨vis.map ++ [(n, vis.next + 1)], vis.next + 1⟩)

mutual

/-- Modelled from the spec: `IntoProduct::into_product` has no implementor
under `src/`, so it is taken from §4.2 (Formula Builder): a leaf becomes a
single-clause single-symbol formula, `all` folds the AND combinator from the
AND identity, `any` folds the OR combinator from the OR identity, interning
symbols left to right (this also matches `Product::from_prereq_tree` and
`Visitor::visit_node`/`visit_all`/`visit_any` in logic.rs). -/
def intoProduct : Visitor → STree → Product × Visitor
  | vis, .node n =>
    let r := vis.symbol n
    ([{r.1}], r.2)
  | vis, .all ts =>
    let r := intoList vis ts
    (r.1.foldl prodAnd Product.andIdentity, r.2)
  | vis, .any ts =>
    let r := intoList vis ts
    (r.1.foldl prodOr Product.orIdentity, r.2)

/-- Conversion of a list of children, threading the visitor left to right. -/
def intoList : Visitor → List STree → List Product × Visitor
  | vis, [] => ([], vis)
  | vis, t :: ts =>
    let r := intoProduct vis t
    let rs := intoList r.2 ts
    (r.1 :: rs.1, rs.2)

end

/-- Interning pass of the top-level `minimize`: for each `(name, tree)` pair,
intern the name, then convert the tree, collecting the database. -/
def internAll : Visitor → List (ℕ × STree) → Products × Visitor
  | vis, [] => ([], vis)
  | vis, (n, t) :: rest =>
    let s := vis.symbol n
    let p := intoProduct s.2 t
    let r := internAll p.2 rest
    ((s.1, p.1) :: r.1, r.2)

/-- The reversed visitor map (`visitor.map.into_iter().map(|(k, v)| (v, k))`);
`map[&symbol]` panics for an uninterned symbol, which cannot happen on the
symbols fed to it, so the default is irrelevant. -/
def invName (vis : Visitor) (s : ℕ) : ℕ :=
  (List.lookup s (vis.map.map fun e => (e.2, e.1))).getD 0

/-- `S::any(sum.iter().map(|symbol| S::node(&map[&symbol])))`. -/
def sumToTree (vis : Visitor) (c : Clause) : STree :=
  .any ((clauseList c).map fun s => .node (invName vis s))

/-- `S::all(product.iter().map(|sum| ...))`. -/
def productToTree (vis : Visitor) (p : Product) : STree :=
  .all (p.map fun c => sumToTree vis c)

/-- The top-level `minimize` function (logic.rs lines 393-412): intern and
convert all trees, minimize the database, and emit one `(name, tree)` pair
per database entry. -/
def topMinimize (trees : List (ℕ × STree)) : List (ℕ × STree) :=
  let r := internAll ⟨[], 0⟩ trees
  let db := Products.minimize r.1
  db.map fun e => (invName r.2 e.1, productToTree r.2 e.2)

/-! ### Basic helper lemmas -/

theorem lookup_mem {ps : Products} {a : ℕ} {p : Product}
    (h : Products.get ps a = some p) : (a, p) ∈ ps := by
  induction ps with
  | nil => simp [Products.get, List.lookup] at h
  | cons x t ih =>
    rw [Products.get, List.lookup_cons] at h
    by_cases hax : (a == x.1) = true
    · simp only [hax, cond_true, Option.some.injEq] at h
      have hax' : a = x.1 := by simpa using hax
      have : (a, p) = x := by cases x; simp_all
      rw [this]
      exact List.mem_cons_self _ _
    · rw [Bool.not_eq_true] at hax
      simp only [hax, cond_false] at h
      exact List.mem_cons_of_mem _ (ih h)

theorem mem_lookup_of_nodup :
    ∀ {ps : Products} {e : ℕ × Product}, (ps.map Prod.fst).Nodup → e ∈ ps →
      Products.get ps e.1 = some e.2
  | [], _, _, he => absurd he (by simp)
  | x :: t, e, hnd, he => by
    rw [List.map_cons, List.nodup_cons] at hnd
    rcases List.mem_cons.mp he with rfl | het
    · obtain ⟨k, v⟩ := e
      simp [Products.get, List.lookup_cons]
    · have hne : e.1 ≠ x.1 := by
        intro hEq
        exact hnd.1 (hEq ▸ List.mem_map_of_mem Prod.fst het)
      have hb : (e.1 == x.1) = false := beq_eq_false_iff_ne.mpr hne
      obtain ⟨k, v⟩ := x
      rw [Products.get, List.lookup_cons, hb]
      exact mem_lookup_of_nodup hnd.2 het

theorem mem_clauseList {c : Clause} {s : ℕ} : s ∈ clauseList c ↔ s ∈ c := by
  constructor
  · intro h
    simpa [clauseList] using (List.mem_filter.mp h).2
  · intro h
    refine List.mem_filter.mpr ⟨List.mem_range.mpr ?_, by simpa⟩
    have : s ≤ c.sup id := Finset.le_sup (f := id) h
    omega

theorem mem_substChildren {ps : Products} {cur : Clause} {sym i : ℕ}
    {x : Clause} :
    (sym, i, x) ∈ substChildren ps cur ↔
      sym ∈ cur ∧ ∃ p, Products.get ps sym = some p ∧
        ∃ c, p[i]? = some c ∧ x = cur.erase sym ∪ c := by
  rw [substChildren, List.mem_flatMap]
  constructor
  · rintro ⟨s, hs, hmem⟩
    rcases hget : Products.get ps s with _ | p
    · rw [hget] at hmem; cases hmem
    · rw [hget] at hmem
      rcases List.mem_map.mp hmem with ⟨ic, hic, hEq⟩
      cases hEq
      refine ⟨mem_clauseList.mp hs, p, hget, ic.2, ?_, rfl⟩
      have : (ic.1, ic.2) ∈ p.enum := by simpa using hic
      exact List.mk_mem_enum_iff_getElem?.mp this
  · rintro ⟨hsym, p, hget, c, hc, hx⟩
    refine ⟨sym, mem_clauseList.mpr hsym, ?_⟩
    rw [hget]
    exact List.mem_map.mpr ⟨(i, c), List.mk_mem_enum_iff_getElem?.mpr hc, by simp [hx]⟩

theorem popMin_eq_none {rhs : Clause} {heap : List Clause} :
    popMin rhs heap = none ↔ heap = [] := by
  rw [popMin]
  rcases h : heap.argmin fun s => (s \ rhs).card with _ | c
  · simp [List.argmin_eq_none.mp h]
  · simp only [reduceCtorEq, false_iff]
    intro hnil
    subst hnil
    simp [List.argmin] at h

theorem popMin_eq_some {rhs : Clause} {heap rest : List Clause} {cur : Clause}
    (h : popMin rhs heap = some (cur, rest)) :
    cur ∈ heap ∧ rest = heap.erase cur := by
  rw [popMin] at h
  rcases hm : heap.argmin fun s => (s \ rhs).card with _ | c
  · rw [hm] at h; cases h
  · rw [hm] at h
    obtain ⟨h1, h2⟩ : c = cur ∧ heap.erase c = rest := by
      exact ⟨congrArg Prod.fst (Option.some.inj h), congrArg Prod.snd (Option.some.inj h)⟩
    subst h1
    exact ⟨List.argmin_mem hm, h2.symm⟩

theorem subset_foldr_union :
    ∀ (cs : List Clause) (c : Clause), c ∈ cs → c ⊆ cs.foldr (· ∪ ·) ∅
  | [], c, h => absurd h (by simp)
  | x :: t, c, h => by
    rcases List.mem_cons.mp h with rfl | h
    · exact Finset.subset_union_left
    · exact (subset_foldr_union t c h).trans Finset.subset_union_right

theorem mem_dbSymbols {ps : Products} {sym : ℕ} {p : Product} {c : Clause}
    (hget : Products.get ps sym = some p) (hc : c ∈ p) : c ⊆ dbSymbols ps := by
  have hmem : c ∈ ps.flatMap fun e => e.2 :=
    List.mem_flatMap.mpr ⟨(sym, p), lookup_mem hget, hc⟩
  exact subset_foldr_union _ _ hmem

/-! ### Invariants of the candidate-pushing fold -/

theorem pushedNew_mono {ps : Products} {rhs : Clause} {d : Option (ℕ × ℕ)}
    {c : ℕ × ℕ × Clause} {cs : List (ℕ × ℕ × Clause)} {s0 s1 : Finset Clause}
    {x : Clause} (hsub : s0 ⊆ s1) (h : PushedNew ps rhs d cs s1 x) :
    PushedNew ps rhs d (c :: cs) s0 x := by
  obtain ⟨h1, h2, sym, i, h3, h4⟩ := h
  exact ⟨fun hx => h1 (hsub hx), h2, sym, i, List.mem_cons_of_mem c h3, h4⟩

theorem foldl_push_spec (ps : Products) (rhs : Clause) (d : Option (ℕ × ℕ)) :
    ∀ (cs : List (ℕ × ℕ × Clause)) (acc : Finset Clause × List Clause),
      acc.1 ⊆ (cs.foldl (pushChild ps rhs d) acc).1 ∧
      (∀ x ∈ acc.2, x ∈ (cs.foldl (pushChild ps rhs d) acc).2) ∧
      (cs.foldl (pushChild ps rhs d) acc).2.length + acc.1.card
        = acc.2.length + (cs.foldl (pushChild ps rhs d) acc).1.card ∧
      (∀ x ∈ (cs.foldl (pushChild ps rhs d) acc).1,
        x ∈ acc.1 ∨ (x ∈ (cs.foldl (pushChild ps rhs d) acc).2 ∧
          PushedNew ps rhs d cs acc.1 x)) ∧
      (∀ x ∈ (cs.foldl (pushChild ps rhs d) acc).2,
        x ∈ acc.2 ∨ (x ∈ (cs.foldl (pushChild ps rhs d) acc).1 ∧
          PushedNew ps rhs d cs acc.1 x))
  | [], acc => by
    refine ⟨Finset.Subset.refl _, fun x hx => hx, rfl, fun x hx => Or.inl hx,
      fun x hx => Or.inl hx⟩
  | c :: cs, acc => by
    rw [List.foldl_cons]
    rcases hvalid : childValid ps rhs d acc.1 c.1 c.2.1 c.2.2 with _ | _
    · have hpc : pushChild ps rhs d acc c = acc := by
        rw [pushChild, hvalid]
        simp
      rw [hpc]
      obtain ⟨h1, h2, h3, h4, h5⟩ := foldl_push_spec ps rhs d cs acc
      refine ⟨h1, h2, h3, fun x hx => ?_, fun x hx => ?_⟩
      · rcases h4 x hx with hx' | ⟨hm, hn⟩
        · exact Or.inl hx'
        · exact Or.inr ⟨hm, pushedNew_mono (Finset.Subset.refl _) hn⟩
      · rcases h5 x hx with hx' | ⟨hm, hn⟩
        · exact Or.inl hx'
        · exact Or.inr ⟨hm, pushedNew_mono (Finset.Subset.refl _) hn⟩
    · have hpc : pushChild ps rhs d acc c = (insert c.2.2 acc.1, c.2.2 :: acc.2) := by
        rw [pushChild, hvalid]
        simp
      rw [hpc]
      obtain ⟨h1, h2, h3, h4, h5⟩ :=
        foldl_push_spec ps rhs d cs (insert c.2.2 acc.1, c.2.2 :: acc.2)
      have hvc := hvalid
      rw [childValid, Bool.and_assoc, Bool.and_eq_true, Bool.and_eq_true] at hvc
      obtain ⟨hd1, hd2, hd3⟩ := hvc
      have hnotseen : c.2.2 ∉ acc.1 := of_decide_eq_true hd2
      have hnotdead : ¬DeadSym ps rhs c.2.2 := by
        rw [Bool.not_eq_eq_eq_not, Bool.not_true, decide_eq_false_iff_not] at hd3
        exact fun hdead => hd3 ⟨hdead.choose, hdead.choose_spec.1,
          hdead.choose_spec.2.1, hdead.choose_spec.2.2⟩
      have hnotdis : d ≠ some (c.1, c.2.1) := of_decide_eq_true hd1
      have hnew : PushedNew ps rhs d (c :: cs) acc.1 c.2.2 :=
        ⟨hnotseen, hnotdead, c.1, c.2.1, by
          refine ⟨List.mem_cons_self _ _, hnotdis⟩⟩
      have hsub : acc.1 ⊆ insert c.2.2 acc.1 := Finset.subset_insert _ _
      refine ⟨hsub.trans h1, ?_, ?_, ?_, ?_⟩
      · intro x hx
        exact h2 x (List.mem_cons_of_mem _ hx)
      · have hcard : (insert c.2.2 acc.1).card = acc.1.card + 1 :=
          Finset.card_insert_of_not_mem hnotseen
      -- measure bookkeeping: one extra pushed element, one extra seen element
        rw [hcard] at h3
        simp only [List.length_cons] at h3
        omega
      · intro x hx
        rcases h4 x hx with hx' | ⟨hm, hn⟩
        · rcases Finset.mem_insert.mp hx' with rfl | hx''
          · refine Or.inr ⟨h2 _ (List.mem_cons_self _ _), hnew⟩
          · exact Or.inl hx''
        · exact Or.inr ⟨hm, pushedNew_mono hsub hn⟩
      · intro x hx
        rcases h5 x hx with hx' | ⟨hm, hn⟩
        · rcases List.mem_cons.mp hx' with rfl | hx''
          · exact Or.inr ⟨h1 (Finset.mem_insert_self _ _), hnew⟩
          · exact Or.inl hx''
        · exact Or.inr ⟨hm, pushedNew_mono hsub hn⟩

theorem foldl_push_mem (ps : Products) (rhs : Clause) (d : Option (ℕ × ℕ)) :
    ∀ (cs : List (ℕ × ℕ × Clause)) (acc : Finset Clause × List Clause)
      (sym i : ℕ) (x : Clause), (sym, i, x) ∈ cs → d ≠ some (sym, i) →
      ¬DeadSym ps rhs x → x ∈ (cs.foldl (pushChild ps rhs d) acc).1
  | [], _, _, _, _, hmem, _, _ => absurd hmem (by simp)
  | c :: cs, acc, sym, i, x, hmem, hdis, hdead => by
    rw [List.foldl_cons]
    rcases List.mem_cons.mp hmem with rfl | hmem'
    · -- the element itself is pushed here unless it is already in `seen`
      rcases hvalid : childValid ps rhs d acc.1 sym i x with _ | _
      · have hseen : x ∈ acc.1 := by
          by_contra hns
          rw [childValid] at hvalid
          have h1 : decide (d ≠ some (sym, i)) = true := decide_eq_true hdis
          have h2 : decide (x ∉ acc.1) = true := decide_eq_true hns
          have h3 : decide (∃ s ∈ x, s ∉ rhs ∧ hasEmptyEntry ps s = true) = false :=
            decide_eq_false fun hex => hdead
              ⟨hex.choose, hex.choose_spec.1, hex.choose_spec.2.1, hex.choose_spec.2.2⟩
          rw [h1, h2, h3] at hvalid
          simp at hvalid
        have hpc : pushChild ps rhs d acc (sym, i, x) = acc := by
          rw [pushChild, hvalid]
          simp
        rw [hpc]
        exact (foldl_push_spec ps rhs d cs acc).1 hseen
      · have hpc : pushChild ps rhs d acc (sym, i, x)
            = (insert x acc.1, x :: acc.2) := by
          rw [pushChild, hvalid]
          simp
        rw [hpc]
        exact (foldl_push_spec ps rhs d cs _).1 (Finset.mem_insert_self _ _)
    · exact foldl_push_mem ps rhs d cs _ sym i x hmem' hdis hdead

/-- Every candidate newly inserted by `expand` is one substitution step from
the expanded set. -/
theorem expand_new_step {ps : Products} {rhs cur : Clause} {d : Option (ℕ × ℕ)}
    {acc : Finset Clause × List Clause} {x : Clause}
    (h : PushedNew ps rhs d (substChildren ps cur) acc.1 x) :
    SubstStepD ps d cur x := by
  obtain ⟨-, -, sym, i, hmem, hdis⟩ := h
  obtain ⟨hsym, p, hget, c, hc, rfl⟩ := mem_substChildren.mp hmem
  exact SubstStepD.subst cur sym i p c hsym hget hc hdis

/-- Every non-dead substitution successor of the expanded set ends up in
`seen` after `expand`. -/
theorem expand_complete {ps : Products} {rhs cur t : Clause}
    {d : Option (ℕ × ℕ)} {acc : Finset Clause × List Clause}
    (h : SubstStepD ps d cur t) (hdead : ¬DeadSym ps rhs t) :
    t ∈ (expand ps rhs d cur acc).1 := by
  obtain ⟨sym, i, p, c, hsym, hget, hc, hdis⟩ := h
  exact foldl_push_mem ps rhs d _ acc sym i _
    (mem_substChildren.mpr ⟨hsym, p, hget, c, hc, rfl⟩) hdis hdead

/-! ### The worklist search: termination, soundness, completeness -/

theorem substStepD_subset_universe {ps : Products} {d : Option (ℕ × ℕ)}
    {cur t : Clause} {U : Finset ℕ} (h : SubstStepD ps d cur t)
    (hcur : cur ⊆ U) (hdb : dbSymbols ps ⊆ U) : t ⊆ U := by
  obtain ⟨sym, i, p, c, hsym, hget, hc, -⟩ := h
  exact Finset.union_subset ((Finset.erase_subset _ _).trans hcur)
    ((mem_dbSymbols hget (List.getElem?_mem hc)).trans hdb)

/-- Bundled facts about one loop iteration: the popped element leaves the
worklist, the expansion keeps every invariant, and the measure drops. -/
theorem expand_invariants (ps : Products) (rhs : Clause) (d : Option (ℕ × ℕ))
    (U : Finset ℕ) (hdb : dbSymbols ps ⊆ U) {seen : Finset Clause}
    {heap rest : List Clause} {cur : Clause}
    (hseen : ∀ s ∈ seen, s ⊆ U) (hheap : ∀ s ∈ heap, s ∈ seen)
    (hcur : cur ∈ heap) (hrest : rest = heap.erase cur) :
    (∀ s ∈ (expand ps rhs d cur (seen, rest)).1, s ⊆ U) ∧
    (∀ s ∈ (expand ps rhs d cur (seen, rest)).2,
      s ∈ (expand ps rhs d cur (seen, rest)).1) ∧
    (expand ps rhs d cur (seen, rest)).2.length + seen.card
      = rest.length + (expand ps rhs d cur (seen, rest)).1.card ∧
    rest.length + 1 = heap.length ∧
    seen ⊆ (expand ps rhs d cur (seen, rest)).1 ∧
    (∀ x ∈ (expand ps rhs d cur (seen, rest)).1, x ∉ seen →
      x ∈ (expand ps rhs d cur (seen, rest)).2) := by
  obtain ⟨h1, h2, h3, h4, h5⟩ := foldl_push_spec ps rhs d (substChildren ps cur) (seen, rest)
  have hcurU : cur ⊆ U := hseen cur (hheap cur hcur)
  have hrestlen : rest.length + 1 = heap.length := by
    rw [hrest, List.length_erase_of_mem hcur]
    have : 0 < heap.length := List.length_pos_of_mem hcur
    omega
  refine ⟨?_, ?_, h3, hrestlen, h1, ?_⟩
  · intro s hs
    rcases h4 s hs with hs' | ⟨-, hnew⟩
    · exact hseen s hs'
    · exact substStepD_subset_universe (expand_new_step hnew) hcurU hdb
  · intro s hs
    rcases h5 s hs with hs' | ⟨hs1, -⟩
    · refine h1 (hheap s ?_)
      exact List.mem_of_mem_erase (hrest ▸ hs')
    · exact hs1
  · intro x hx hxseen
    rcases h4 x hx with hx' | ⟨hx2, -⟩
    · exact absurd hx' hxseen
    · exact hx2

theorem impliesLoop_isSome (ps : Products) (rhs : Clause) (d : Option (ℕ × ℕ))
    (U : Finset ℕ) (hdb : dbSymbols ps ⊆ U) :
    ∀ (fuel : ℕ) (seen : Finset Clause) (heap : List Clause),
      (∀ s ∈ seen, s ⊆ U) → (∀ s ∈ heap, s ∈ seen) →
      heap.length + (2 ^ U.card - seen.card) < fuel →
      (impliesLoop ps rhs d fuel seen heap).isSome = true
  | 0, _, _, _, _, hlt => absurd hlt (by omega)
  | fuel + 1, seen, heap, hseen, hheap, hlt => by
    rw [impliesLoop]
    rcases hpop : popMin rhs heap with _ | ⟨cur, rest⟩
    · simp
    · obtain ⟨hcurmem, hrest⟩ := popMin_eq_some hpop
      by_cases hsub : cur ⊆ rhs
      · simp [hsub]
      · simp only [hsub, if_false]
        obtain ⟨hseen', hheap', hmeasure, hrestlen, hmono, -⟩ :=
          expand_invariants ps rhs d U hdb hseen hheap hcurmem hrest
        refine impliesLoop_isSome ps rhs d U hdb fuel _ _ hseen' hheap' ?_
        have hcard : (expand ps rhs d cur (seen, rest)).1.card ≤ 2 ^ U.card := by
          have hsubp : (expand ps rhs d cur (seen, rest)).1 ⊆ U.powerset :=
            fun x hx => Finset.mem_powerset.mpr (hseen' x hx)
          calc (expand ps rhs d cur (seen, rest)).1.card
              ≤ U.powerset.card := Finset.card_le_card hsubp
            _ = 2 ^ U.card := Finset.card_powerset U
        have hmonocard : seen.card ≤ (expand ps rhs d cur (seen, rest)).1.card :=
          Finset.card_le_card hmono
        omega

theorem impliesLoop_sound (ps : Products) (rhs : Clause) (d : Option (ℕ × ℕ))
    (lhs : Clause) :
    ∀ (fuel : ℕ) (seen : Finset Clause) (heap : List Clause),
      (∀ s ∈ seen, ReachesD ps d lhs s) → (∀ s ∈ heap, s ∈ seen) →
      impliesLoop ps rhs d fuel seen heap = some true →
      ∃ t, ReachesD ps d lhs t ∧ t ⊆ rhs
  | 0, _, _, _, _, h => by rw [impliesLoop] at h; cases h
  | fuel + 1, seen, heap, hseen, hheap, h => by
    rw [impliesLoop] at h
    rcases hpop : popMin rhs heap with _ | ⟨cur, rest⟩
    · rw [hpop] at h; cases h
    · rw [hpop] at h
      obtain ⟨hcurmem, hrest⟩ := popMin_eq_some hpop
      by_cases hsub : cur ⊆ rhs
      · exact ⟨cur, hseen cur (hheap cur hcurmem), hsub⟩
      · simp only [hsub, if_false] at h
        obtain ⟨h1, h2, h3, h4, h5⟩ :=
          foldl_push_spec ps rhs d (substChildren ps cur) (seen, rest)
        refine impliesLoop_sound ps rhs d lhs fuel _ _ ?_ ?_ h
        · intro s hs
          rcases h4 s hs with hs' | ⟨-, hnew⟩
          · exact hseen s hs'
          · exact Relation.ReflTransGen.tail (hseen cur (hheap cur hcurmem))
              (expand_new_step hnew)
        · intro s hs
          rcases h5 s hs with hs' | ⟨hs1, -⟩
          · exact h1 (hheap s (List.mem_of_mem_erase (hrest ▸ hs')))
          · exact hs1

theorem deadSym_step {ps : Products} {rhs : Clause} {d : Option (ℕ × ℕ)}
    {s t : Clause} (h : SubstStepD ps d s t) (hdead : DeadSym ps rhs s) :
    DeadSym ps rhs t := by
  obtain ⟨sym, i, p, c, hsym, hget, hc, -⟩ := h
  obtain ⟨w, hw, hwr, hwe⟩ := hdead
  have hwne : w ≠ sym := by
    intro hEq
    subst hEq
    rw [hasEmptyEntry, hget] at hwe
    have : p = [] := List.isEmpty_iff.mp hwe
    subst this
    simp at hc
  exact ⟨w, Finset.mem_union_left _ (Finset.mem_erase.mpr ⟨hwne, hw⟩), hwr, hwe⟩

theorem freshPath_not_dead {ps : Products} {rhs : Clause} {d : Option (ℕ × ℕ)}
    {seen : Finset Clause} {s : Clause} (h : FreshPath ps d rhs seen s) :
    ¬DeadSym ps rhs s := by
  induction h with
  | done s hs =>
    rintro ⟨w, hw, hwr, -⟩
    exact hwr (hs hw)
  | step s t hst ht hp ih =>
    intro hdead
    exact ih (deadSym_step hst hdead)

theorem freshPath_advance {ps : Products} {rhs : Clause} {d : Option (ℕ × ℕ)}
    {seen seen' : Finset Clause} {H' : List Clause}
    (hnew : ∀ x ∈ seen', x ∉ seen → x ∈ H') {s : Clause}
    (h : FreshPath ps d rhs seen s) :
    FreshPath ps d rhs seen' s ∨ ∃ s', s' ∈ H' ∧ FreshPath ps d rhs seen' s' := by
  induction h with
  | done s hs => exact Or.inl (FreshPath.done s hs)
  | step s t hst ht hp ih =>
    rcases ih with hp' | hfound
    · by_cases ht' : t ∈ seen'
      · exact Or.inr ⟨t, hnew t ht' ht, hp'⟩
      · exact Or.inl (FreshPath.step s t hst ht' hp')
    · exact Or.inr hfound

theorem freshPath_of_reachesD {ps : Products} {rhs : Clause}
    {d : Option (ℕ × ℕ)} {s g : Clause} (h : ReachesD ps d s g) (hg : g ⊆ rhs) :
    FreshPath ps d rhs ∅ s := by
  induction h using Relation.ReflTransGen.head_induction_on with
  | refl => exact FreshPath.done g hg
  | head hst hrest ih =>
    exact FreshPath.step _ _ hst (Finset.not_mem_empty _) ih

theorem impliesLoop_complete (ps : Products) (rhs : Clause) (d : Option (ℕ × ℕ))
    (U : Finset ℕ) (hdb : dbSymbols ps ⊆ U) :
    ∀ (fuel : ℕ) (seen : Finset Clause) (heap : List Clause),
      (∀ s ∈ seen, s ⊆ U) → (∀ s ∈ heap, s ∈ seen) →
      heap.length + (2 ^ U.card - seen.card) < fuel →
      (∃ s0 ∈ heap, FreshPath ps d rhs seen s0) →
      impliesLoop ps rhs d fuel seen heap = some true
  | 0, _, _, _, _, hlt, _ => absurd hlt (by omega)
  | fuel + 1, seen, heap, hseen, hheap, hlt, hpath => by
    rw [impliesLoop]
    rcases hpop : popMin rhs heap with _ | ⟨cur, rest⟩
    · obtain ⟨s0, hs0, -⟩ := hpath
      rw [popMin_eq_none.mp hpop] at hs0
      cases hs0
    · obtain ⟨hcurmem, hrest⟩ := popMin_eq_some hpop
      by_cases hsub : cur ⊆ rhs
      · simp [hsub]
      · simp only [hsub, if_false]
        obtain ⟨hseen', hheap', hmeasure, hrestlen, hmono, hnew⟩ :=
          expand_invariants ps rhs d U hdb hseen hheap hcurmem hrest
        obtain ⟨s0, hs0heap, hs0path⟩ := hpath
        refine impliesLoop_complete ps rhs d U hdb fuel _ _ hseen' hheap' ?_ ?_
        · have hcard : (expand ps rhs d cur (seen, rest)).1.card ≤ 2 ^ U.card := by
            have hsubp : (expand ps rhs d cur (seen, rest)).1 ⊆ U.powerset :=
              fun x hx => Finset.mem_powerset.mpr (hseen' x hx)
            calc (expand ps rhs d cur (seen, rest)).1.card
                ≤ U.powerset.card := Finset.card_le_card hsubp
              _ = 2 ^ U.card := Finset.card_powerset U
          have hmonocard : seen.card ≤ (expand ps rhs d cur (seen, rest)).1.card :=
            Finset.card_le_card hmono
          omega
        · by_cases hs0cur : s0 = cur
          · subst hs0cur
            cases hs0path with
            | done _ hs => exact absurd hs hsub
            | step _ t hst ht hp =>
              have htseen : t ∈ (expand ps rhs d s0 (seen, rest)).1 :=
                expand_complete hst (freshPath_not_dead hp)
              have htheap : t ∈ (expand ps rhs d s0 (seen, rest)).2 :=
                hnew t htseen ht
              rcases freshPath_advance hnew hp with hp' | ⟨s', hs', hp'⟩
              · exact ⟨t, htheap, hp'⟩
              · exact ⟨s', hs', hp'⟩
          · have hs0rest : s0 ∈ (expand ps rhs d cur (seen, rest)).2 := by
              refine (foldl_push_spec ps rhs d (substChildren ps cur) (seen, rest)).2.1 s0 ?_
              rw [hrest]
              exact (List.mem_erase_of_ne hs0cur).mpr hs0heap
            rcases freshPath_advance hnew hs0path with hp' | ⟨s', hs', hp'⟩
            · exact ⟨s0, hs0rest, hp'⟩
            · exact ⟨s', hs', hp'⟩

/-! ### The search against the specification relation -/

theorem substStep_iff_none {ps : Products} {cur t : Clause} :
    SubstStep ps cur t ↔ SubstStepD ps none cur t := by
  constructor
  · rintro ⟨sym, p, c, hsym, hget, hc⟩
    rcases List.getElem_of_mem hc with ⟨i, hi, hgi⟩
    exact SubstStepD.subst cur sym i p c hsym hget
      (by rw [List.getElem?_eq_getElem hi, hgi]) (by simp)
  · rintro ⟨sym, i, p, c, hsym, hget, hc, -⟩
    exact SubstStep.subst cur sym p c hsym hget (List.getElem?_mem hc)

theorem reaches_iff_none {ps : Products} {s t : Clause} :
    Reaches ps s t ↔ ReachesD ps none s t :=
  ⟨Relation.ReflTransGen.mono fun _ _ h => substStep_iff_none.mp h,
   Relation.ReflTransGen.mono fun _ _ h => substStep_iff_none.mpr h⟩

theorem impliesO_isSome_all (ps : Products) (lhs rhs : Clause)
    (d : Option (ℕ × ℕ)) : (impliesO ps lhs rhs d).isSome = true := by
  refine impliesLoop_isSome ps rhs d (searchUniverse ps lhs)
    Finset.subset_union_right (impliesFuel ps lhs) {lhs} [lhs] ?_ ?_ ?_
  · intro s hs
    rw [Finset.mem_singleton.mp hs]
    exact Finset.subset_union_left
  · intro s hs
    rw [List.mem_singleton.mp hs]
    exact Finset.mem_singleton_self _
  · have h1 : (1 : ℕ) ≤ 2 ^ (searchUniverse ps lhs).card := Nat.one_le_two_pow
    simp only [List.length_singleton, Finset.card_singleton, impliesFuel]
    omega

theorem implies_eq_true_of_some {ps : Products} {lhs rhs : Clause}
    {d : Option (ℕ × ℕ)} (h : Products.implies ps lhs rhs d = true) :
    impliesO ps lhs rhs d = some true := by
  rcases hO : impliesO ps lhs rhs d with _ | b
  · simp only [Products.implies, hO] at h
    simp at h
  · simp only [Products.implies, hO, Option.getD_some] at h
    rw [h]

/-- Soundness of `Products::implies` at the top level: a positive answer
yields a substitution path avoiding the forbidden pair. -/
theorem implies_sound {ps : Products} {lhs rhs : Clause} {d : Option (ℕ × ℕ)}
    (h : Products.implies ps lhs rhs d = true) :
    ∃ t, ReachesD ps d lhs t ∧ t ⊆ rhs := by
  refine impliesLoop_sound ps rhs d lhs (impliesFuel ps lhs) {lhs} [lhs] ?_ ?_
    (implies_eq_true_of_some h)
  · intro s hs
    rw [Finset.mem_singleton.mp hs]
    exact Relation.ReflTransGen.refl
  · intro s hs
    rw [List.mem_singleton.mp hs]
    exact Finset.mem_singleton_self _

/-- Completeness of `Products::implies` at the top level: any substitution
path from `lhs` to a subset of `rhs` makes the search answer `true`. -/
theorem implies_complete {ps : Products} {lhs rhs t : Clause}
    {d : Option (ℕ × ℕ)} (hreach : ReachesD ps d lhs t) (hsub : t ⊆ rhs) :
    Products.implies ps lhs rhs d = true := by
  have hfp0 : FreshPath ps d rhs ∅ lhs := freshPath_of_reachesD hreach hsub
  have hnew : ∀ x ∈ ({lhs} : Finset Clause), x ∉ (∅ : Finset Clause) →
      x ∈ [lhs] := by
    intro x hx _
    rw [Finset.mem_singleton.mp hx]
    exact List.mem_singleton_self _
  have hstart : ∃ s0 ∈ [lhs], FreshPath ps d rhs {lhs} s0 := by
    rcases freshPath_advance hnew hfp0 with hp' | ⟨s', hs', hp'⟩
    · exact ⟨lhs, List.mem_singleton_self _, hp'⟩
    · exact ⟨s', hs', hp'⟩
  have hloop : impliesLoop ps rhs d (impliesFuel ps lhs) {lhs} [lhs] = some true := by
    refine impliesLoop_complete ps rhs d (searchUniverse ps lhs)
      Finset.subset_union_right (impliesFuel ps lhs) {lhs} [lhs] ?_ ?_ ?_ hstart
    · intro s hs
      rw [Finset.mem_singleton.mp hs]
      exact Finset.subset_union_left
    · intro s hs
      rw [List.mem_singleton.mp hs]
      exact Finset.mem_singleton_self _
    · have h1 : (1 : ℕ) ≤ 2 ^ (searchUniverse ps lhs).card := Nat.one_le_two_pow
      simp only [List.length_singleton, Finset.card_singleton, impliesFuel]
      omega
  rw [Products.implies, impliesO, hloop, Option.getD_some]

/-! ### The minimize loop -/

theorem findThingy_spec {ps : Products} {ab : ℕ × ℕ}
    (h : findThingy ps = some ab) :
    ∃ e ∈ ps, e.1 = ab.1 ∧ ∃ r, e.2[ab.2]? = some r ∧
      Products.implies ps {ab.1} r (some ab) = true := by
  obtain ⟨e, he, hfe⟩ := List.exists_of_findSome?_eq_some h
  rcases hfind : e.2.enum.find?
      (fun bi => Products.implies ps {e.1} bi.2 (some (e.1, bi.1))) with _ | bi
  · rw [hfind] at hfe
    cases hfe
  · rw [hfind] at hfe
    rw [Option.map_some'] at hfe
    obtain rfl : (e.1, bi.1) = ab := Option.some.inj hfe
    have hpred := List.find?_some hfind
    have hmem : (bi.1, bi.2) ∈ e.2.enum := by
      simpa using List.mem_of_find?_eq_some hfind
    exact ⟨e, he, rfl, bi.2, List.mk_mem_enum_iff_getElem?.mp hmem, hpred⟩

theorem findThingy_none {ps : Products} (h : findThingy ps = none) :
    ∀ e ∈ ps, ∀ (b : ℕ) (r : Clause), e.2[b]? = some r →
      Products.implies ps {e.1} r (some (e.1, b)) = false := by
  intro e he b r hbr
  have hfe := List.findSome?_eq_none_iff.mp h e he
  have hfind : e.2.enum.find?
      (fun bi => Products.implies ps {e.1} bi.2 (some (e.1, bi.1))) = none := by
    rcases hf : e.2.enum.find?
        (fun bi => Products.implies ps {e.1} bi.2 (some (e.1, bi.1))) with _ | bi
    · exact hf
    · rw [hf, Option.map_some'] at hfe
      cases hfe
  have := List.find?_eq_none.mp hfind (b, r) (List.mk_mem_enum_iff_getElem?.mpr hbr)
  simpa using this

theorem get_removeClause_self (a b : ℕ) :
    ∀ ps : Products, Products.get (removeClause ps a b) a
      = (Products.get ps a).map fun p => p.eraseIdx b
  | [] => rfl
  | (k, v) :: t => by
    rw [removeClause, List.map_cons]
    by_cases hka : k = a
    · subst hka
      rw [if_pos rfl]
      simp [Products.get, List.lookup_cons]
    · have hb : (a == k) = false := beq_eq_false_iff_ne.mpr fun h => hka h.symm
      rw [if_neg hka, Products.get, Products.get, List.lookup_cons, List.lookup_cons, hb]
      exact get_removeClause_self a b t

theorem get_removeClause_ne {a s : ℕ} (b : ℕ) (hsa : s ≠ a) :
    ∀ ps : Products, Products.get (removeClause ps a b) s = Products.get ps s
  | [] => rfl
  | (k, v) :: t => by
    rw [removeClause, List.map_cons]
    by_cases hsk : s = k
    · subst hsk
      rw [if_neg hsa]
      simp [Products.get, List.lookup_cons]
    · have hb : (s == k) = false := beq_eq_false_iff_ne.mpr hsk
      by_cases hka : k = a
      · subst hka
        rw [if_pos rfl, Products.get, Products.get, List.lookup_cons, List.lookup_cons, hb]
        exact get_removeClause_ne b hsa t
      · rw [if_neg hka, Products.get, Products.get, List.lookup_cons, List.lookup_cons, hb]
        exact get_removeClause_ne b hsa t

theorem removeClause_keys (ps : Products) (a b : ℕ) :
    (removeClause ps a b).map Prod.fst = ps.map Prod.fst := by
  rw [removeClause, List.map_map]
  apply List.map_congr_left
  intro e he
  by_cases h : e.1 = a <;> simp [h]

theorem totalClauses_removeClause_le (a b : ℕ) :
    ∀ ps : Products, totalClauses (removeClause ps a b) ≤ totalClauses ps
  | [] => le_refl _
  | e :: t => by
    rw [removeClause, List.map_cons, totalClauses, List.map_cons, List.sum_cons,
      totalClauses, List.map_cons, List.sum_cons]
    have hhead : (if e.1 = a then (e.1, e.2.eraseIdx b) else e).2.length
        ≤ e.2.length := by
      by_cases h : e.1 = a
      · simp only [if_pos h]
        exact (List.eraseIdx_sublist _ _).length_le
      · rw [if_neg h]
    have htail := totalClauses_removeClause_le a b t
    rw [totalClauses, removeClause] at htail
    exact Nat.add_le_add hhead htail

theorem totalClauses_removeClause_lt {a b : ℕ} :
    ∀ {ps : Products} (e : ℕ × Product), e ∈ ps → e.1 = a → b < e.2.length →
      totalClauses (removeClause ps a b) < totalClauses ps := by
  intro ps
  induction ps with
  | nil => intro e he; cases he
  | cons x t ih =>
    intro e he hea hb
    rw [removeClause, List.map_cons, totalClauses, List.map_cons, List.sum_cons,
      totalClauses, List.map_cons, List.sum_cons]
    rcases List.mem_cons.mp he with rfl | het
    · have hhead : (if e.1 = a then (e.1, e.2.eraseIdx b) else e).2.length
          < e.2.length := by
        rw [if_pos hea]
        show (e.2.eraseIdx b).length < e.2.length
        rw [List.length_eraseIdx_of_lt hb]
        omega
      have htail := totalClauses_removeClause_le a b t
      rw [totalClauses, removeClause] at htail
      exact Nat.add_lt_add_of_lt_of_le hhead htail
    · have hhead : (if x.1 = a then (x.1, x.2.eraseIdx b) else x).2.length
          ≤ x.2.length := by
        by_cases h : x.1 = a
        · simp only [if_pos h]
          exact (List.eraseIdx_sublist _ _).length_le
        · rw [if_neg h]
      have htail := ih e het hea hb
      rw [totalClauses, removeClause] at htail
      exact Nat.add_lt_add_of_le_of_lt hhead htail

theorem minimizeLoop_isSome :
    ∀ (fuel : ℕ) (ps : Products), totalClauses ps < fuel →
      (minimizeLoop fuel ps).isSome = true
  | 0, _, h => absurd h (by omega)
  | fuel + 1, ps, h => by
    rw [minimizeLoop]
    rcases hft : findThingy ps with _ | ab
    · simp
    · obtain ⟨e, he, hea, r, hbr, -⟩ := findThingy_spec hft
      have hb : ab.2 < e.2.length := (List.getElem?_eq_some_iff.mp hbr).1
      have hdec := totalClauses_removeClause_lt e he hea hb
      exact minimizeLoop_isSome fuel _ (by omega)

theorem minimizeLoop_fixpoint :
    ∀ (fuel : ℕ) (ps qs : Products), minimizeLoop fuel ps = some qs →
      findThingy qs = none
  | 0, _, _, h => by rw [minimizeLoop] at h; cases h
  | fuel + 1, ps, qs, h => by
    rw [minimizeLoop] at h
    rcases hft : findThingy ps with _ | ab
    · rw [hft] at h
      obtain rfl := Option.some.inj h
      exact hft
    · rw [hft] at h
      exact minimizeLoop_fixpoint fuel _ qs h

theorem minimize_eq_loop (ps : Products) :
    minimizeLoop (totalClauses ps + 1) ps = some (Products.minimize ps) := by
  have h := minimizeLoop_isSome (totalClauses ps + 1) ps (by omega)
  rcases hq : minimizeLoop (totalClauses ps + 1) ps with _ | q
  · rw [hq] at h
    cases h
  · rw [Products.minimize, hq, Option.getD_some]

theorem minimizeLoop_chain :
    ∀ (fuel : ℕ) (ps qs : Products), (ps.map Prod.fst).Nodup →
      minimizeLoop fuel ps = some qs → Relation.ReflTransGen MinStep ps qs
  | 0, _, _, _, h => by rw [minimizeLoop] at h; cases h
  | fuel + 1, ps, qs, hnd, h => by
    rw [minimizeLoop] at h
    rcases hft : findThingy ps with _ | ab
    · rw [hft] at h
      obtain rfl := Option.some.inj h
      exact Relation.ReflTransGen.refl
    · rw [hft] at h
      obtain ⟨e, he, hea, r, hbr, himp⟩ := findThingy_spec hft
      have hget : Products.get ps ab.1 = some e.2 := hea ▸ mem_lookup_of_nodup hnd he
      have hstep : MinStep ps (removeClause ps ab.1 ab.2) :=
        ⟨ab.1, ab.2, e.2, r, hget, hbr, by rw [← Prod.mk.eta (p := ab)] at himp; exact himp, rfl⟩
      have hnd' : ((removeClause ps ab.1 ab.2).map Prod.fst).Nodup := by
        rw [removeClause_keys]
        exact hnd
      exact Relation.ReflTransGen.head hstep (minimizeLoop_chain fuel _ qs hnd' h)

theorem minimizeLoop_dbLe :
    ∀ (fuel : ℕ) (ps qs : Products), minimizeLoop fuel ps = some qs →
      ∀ (s : ℕ) (p' : Product), Products.get qs s = some p' →
        ∃ p, Products.get ps s = some p ∧ List.Sublist p' p
  | 0, _, _, h => by rw [minimizeLoop] at h; cases h
  | fuel + 1, ps, qs, h => by
    rw [minimizeLoop] at h
    rcases hft : findThingy ps with _ | ab
    · rw [hft] at h
      obtain rfl := Option.some.inj h
      exact fun s p' hp' => ⟨p', hp', List.Sublist.refl p'⟩
    · rw [hft] at h
      intro s p' hp'
      obtain ⟨p1, hp1, hsub1⟩ := minimizeLoop_dbLe fuel _ qs h s p' hp'
      by_cases hsa : s = ab.1
      · rw [hsa, get_removeClause_self] at hp1
        rcases hg : Products.get ps ab.1 with _ | p
        · rw [hg] at hp1
          cases hp1
        · rw [hg, Option.map_some'] at hp1
          obtain rfl := Option.some.inj hp1
          refine ⟨p, ?_, hsub1.trans (List.eraseIdx_sublist _ _)⟩
          rw [hsa]
          exact hg
      · rw [get_removeClause_ne _ hsa] at hp1
        exact ⟨p1, hp1, hsub1⟩

/-! ### Semantic preservation of clause removal -/

theorem mem_eraseIdx_of_ne :
    ∀ (p : Product) (b i : ℕ) (c : Clause), i ≠ b → p[i]? = some c →
      c ∈ p.eraseIdx b
  | [], _, _, _, _, h => by simp at h
  | x :: t, 0, i, c, hne, h => by
    rcases i with _ | j
    · exact absurd rfl hne
    · rw [List.eraseIdx_cons_zero]
      have hj : t[j]? = some c := by simpa using h
      exact List.getElem?_mem hj
  | x :: t, b + 1, 0, c, _, h => by
    rw [List.eraseIdx_cons_succ]
    have hx : x = c := by simpa using h
    rw [hx]
    exact List.mem_cons_self _ _
  | x :: t, b + 1, i + 1, c, hne, h => by
    rw [List.eraseIdx_cons_succ]
    refine List.mem_cons_of_mem _ (mem_eraseIdx_of_ne t b i c (by omega) ?_)
    simpa using h

/-- Along one substitution step, satisfaction of the candidate clause is
preserved for any assignment that satisfies every clause the step may use. -/
theorem clauseSat_step {ps : Products} {d : Option (ℕ × ℕ)} {s t : Clause}
    {v : ℕ → Bool} (hstep : SubstStepD ps d s t)
    (hsound : ∀ sym i q c, Products.get ps sym = some q → q[i]? = some c →
      d ≠ some (sym, i) → v sym = true → clauseSat v c)
    (hs : clauseSat v s) : clauseSat v t := by
  obtain ⟨sym, i, p, c, hsym, hget, hc, hd⟩ := hstep
  obtain ⟨w, hw, hv⟩ := hs
  by_cases hws : w = sym
  · subst hws
    obtain ⟨u, hu, huv⟩ := hsound w i p c hget hc hd hv
    exact ⟨u, Finset.mem_union_right _ hu, huv⟩
  · exact ⟨w, Finset.mem_union_left _ (Finset.mem_erase.mpr ⟨hws, hw⟩), hv⟩

theorem clauseSat_reachesD {ps : Products} {d : Option (ℕ × ℕ)} {s t : Clause}
    {v : ℕ → Bool} (hreach : ReachesD ps d s t)
    (hsound : ∀ sym i q c, Products.get ps sym = some q → q[i]? = some c →
      d ≠ some (sym, i) → v sym = true → clauseSat v c)
    (hs : clauseSat v s) : clauseSat v t := by
  induction hreach with
  | refl => exact hs
  | tail hab hbc ih => exact clauseSat_step hbc hsound ih

theorem mem_removeClause_of_ne {ps : Products} {a b : ℕ} {e : ℕ × Product}
    (he : e ∈ ps) (hea : e.1 ≠ a) : e ∈ removeClause ps a b := by
  rw [removeClause]
  have := List.mem_map_of_mem
    (fun e : ℕ × Product => if e.1 = a then (e.1, e.2.eraseIdx b) else e) he
  simpa [hea] using this

theorem mem_removeClause_of_eq {ps : Products} {a b : ℕ} {e : ℕ × Product}
    (he : e ∈ ps) (hea : e.1 = a) : (e.1, e.2.eraseIdx b) ∈ removeClause ps a b := by
  rw [removeClause]
  have := List.mem_map_of_mem
    (fun e : ℕ × Product => if e.1 = a then (e.1, e.2.eraseIdx b) else e) he
  simpa [hea] using this

/-- Removing a clause can only weaken the database constraint. -/
theorem dbSat_removeClause {ps : Products} {a b : ℕ} {v : ℕ → Bool}
    (h : dbSat ps v) : dbSat (removeClause ps a b) v := by
  intro e' he'
  rcases List.mem_map.mp he' with ⟨e, he, rfl⟩
  by_cases hea : e.1 = a
  · rw [if_pos hea]
    intro hv c hc
    exact h e he hv c ((List.eraseIdx_sublist _ _).mem hc)
  · rw [if_neg hea]
    exact h e he

/-- Removing a clause that the oracle (with that clause forbidden) reports
implied does not weaken the database constraint: the clause is recovered
through the substitution path the oracle found. -/
theorem dbSat_of_removeClause {ps : Products} {a b : ℕ} {p : Product}
    {r : Clause} {v : ℕ → Bool} (hnd : (ps.map Prod.fst).Nodup)
    (hget : Products.get ps a = some p) (hbr : p[b]? = some r)
    (himp : Products.implies ps {a} r (some (a, b)) = true)
    (h : dbSat (removeClause ps a b) v) : dbSat ps v := by
  have hsound : ∀ sym i q c, Products.get ps sym = some q → q[i]? = some c →
      (some (a, b) : Option (ℕ × ℕ)) ≠ some (sym, i) → v sym = true →
      clauseSat v c := by
    intro sym i q c hgq hqc hne hv
    by_cases hsa : sym = a
    · subst hsa
      rw [hget] at hgq
      obtain rfl := Option.some.inj hgq
      have hib : i ≠ b := by
        intro hEq
        subst hEq
        exact hne rfl
      have hc' : c ∈ p.eraseIdx b := mem_eraseIdx_of_ne p b i c hib hqc
      have hgq' : Products.get (removeClause ps sym b) sym
          = some (p.eraseIdx b) := by
        rw [get_removeClause_self, hget, Option.map_some']
      exact h _ (lookup_mem hgq') hv c hc'
    · have hgq' : Products.get (removeClause ps a b) sym = some q := by
        rw [get_removeClause_ne _ hsa]
        exact hgq
      exact h _ (lookup_mem hgq') hv c (List.getElem?_mem hqc)
  intro e he hv
  by_cases hea : e.1 = a
  · have hgete : Products.get ps a = some e.2 := hea ▸ mem_lookup_of_nodup hnd he
    rw [hget] at hgete
    obtain rfl : p = e.2 := Option.some.inj hgete
    intro c hc
    rcases List.getElem_of_mem hc with ⟨i, hi, hgi⟩
    by_cases hib : i = b
    · -- `c` is the removed clause; recover it through the oracle's path
      have hcr : c = r := by
        subst hib
        rw [List.getElem?_eq_getElem hi, hgi] at hbr
        exact Option.some.inj hbr
      obtain ⟨t, hreach, hts⟩ := implies_sound himp
      have hsa : clauseSat v {a} := ⟨a, Finset.mem_singleton_self a, hea ▸ hv⟩
      obtain ⟨u, hu, huv⟩ := clauseSat_reachesD hreach hsound hsa
      exact ⟨u, hcr ▸ hts hu, huv⟩
    · have hc' : c ∈ e.2.eraseIdx b :=
        mem_eraseIdx_of_ne e.2 b i c hib (by rw [List.getElem?_eq_getElem hi, hgi])
      have hmem : (e.1, e.2.eraseIdx b) ∈ removeClause ps a b :=
        mem_removeClause_of_eq he hea
      exact h _ hmem hv c hc'
  · exact h e (mem_removeClause_of_ne he hea) hv

theorem minimizeLoop_dbSat :
    ∀ (fuel : ℕ) (ps qs : Products), (ps.map Prod.fst).Nodup →
      minimizeLoop fuel ps = some qs → ∀ v, (dbSat qs v ↔ dbSat ps v)
  | 0, _, _, _, h => by rw [minimizeLoop] at h; cases h
  | fuel + 1, ps, qs, hnd, h => by
    rw [minimizeLoop] at h
    rcases hft : findThingy ps with _ | ab
    · rw [hft] at h
      obtain rfl := Option.some.inj h
      exact fun v => Iff.rfl
    · rw [hft] at h
      obtain ⟨e, he, hea, r, hbr, himp⟩ := findThingy_spec hft
      have hget : Products.get ps ab.1 = some e.2 := hea ▸ mem_lookup_of_nodup hnd he
      have himp' : Products.implies ps {ab.1} r (some (ab.1, ab.2)) = true := by
        rw [Prod.mk.eta]
        exact himp
      have hnd' : ((removeClause ps ab.1 ab.2).map Prod.fst).Nodup := by
        rw [removeClause_keys]
        exact hnd
      intro v
      refine (minimizeLoop_dbSat fuel _ qs hnd' h v).trans ?_
      exact ⟨dbSat_of_removeClause hnd hget hbr himp', dbSat_removeClause⟩

/-! ### Remaining small facts -/

theorem minimize_of_findThingy_none {qs : Products} (h : findThingy qs = none) :
    Products.minimize qs = qs := by
  rw [Products.minimize, minimizeLoop, h, Option.getD_some]

theorem mem_prodOr {p q : Product} {c : Clause} :
    c ∈ prodOr p q ↔ ∃ a ∈ p, ∃ b ∈ q, c = a ∪ b := by
  rw [prodOr, List.mem_flatten]
  constructor
  · rintro ⟨l, hl, hc⟩
    rcases List.mem_map.mp hl with ⟨a, ha, rfl⟩
    rcases List.mem_map.mp hc with ⟨b, hb, rfl⟩
    exact ⟨a, ha, b, hb, rfl⟩
  · rintro ⟨a, ha, b, hb, rfl⟩
    exact ⟨q.map fun b => a ∪ b, List.mem_map_of_mem _ ha,
      List.mem_map_of_mem _ hb⟩

theorem prodOr_orIdentity_left (q : Product) : prodOr Product.orIdentity q = q := by
  show ((Product.orIdentity.map fun a => q.map fun b => a ∪ b)).flatten = q
  rw [Product.orIdentity, List.map_cons, List.map_nil, List.flatten_cons,
    List.flatten_nil, List.append_nil]
  have : (fun b : Clause => ∅ ∪ b) = id := by
    funext b
    exact Finset.empty_union b
  rw [this, List.map_id]

theorem prodOr_orIdentity_right : ∀ p : Product, prodOr p Product.orIdentity = p
  | [] => rfl
  | a :: t => by
    have ht := prodOr_orIdentity_right t
    rw [prodOr] at ht
    rw [prodOr, List.map_cons, List.flatten_cons, ht]
    show ([a ∪ ∅] : Product) ++ t = a :: t
    rw [Finset.union_empty]
    rfl

theorem totalClauses_cons (e : ℕ × Product) (t : Products) :
    totalClauses (e :: t) = e.2.length + totalClauses t := by
  rw [totalClauses, List.map_cons, List.sum_cons]
  rfl

theorem removeClause_cons (e : ℕ × Product) (t : Products) (a b : ℕ) :
    removeClause (e :: t) a b
      = (if e.1 = a then (e.1, e.2.eraseIdx b) else e) :: removeClause t a b := rfl

theorem removeClause_eq_of_not_mem {a b : ℕ} :
    ∀ {ps : Products}, a ∉ ps.map Prod.fst → removeClause ps a b = ps
  | [], _ => rfl
  | e :: t, h => by
    rw [List.map_cons, List.mem_cons] at h
    push_neg at h
    have ht : removeClause t a b = t := removeClause_eq_of_not_mem h.2
    rw [removeClause_cons, if_neg fun hEq => h.1 hEq.symm, ht]

theorem totalClauses_removeClause_nodup {a b : ℕ} :
    ∀ {ps : Products}, (ps.map Prod.fst).Nodup →
      ∀ e : ℕ × Product, e ∈ ps → e.1 = a → b < e.2.length →
      totalClauses (removeClause ps a b) + 1 = totalClauses ps := by
  intro ps
  induction ps with
  | nil => intro _ e he; cases he
  | cons x t ih =>
    intro hnd e he hea hb
    rw [List.map_cons, List.nodup_cons] at hnd
    rw [removeClause_cons, totalClauses_cons, totalClauses_cons]
    rcases List.mem_cons.mp he with rfl | het
    · rw [if_pos hea]
      have htail : removeClause t a b = t :=
        removeClause_eq_of_not_mem (hea ▸ hnd.1)
      rw [htail]
      show (e.2.eraseIdx b).length + totalClauses t + 1
        = e.2.length + totalClauses t
      rw [List.length_eraseIdx_of_lt hb]
      omega
    · have hxa : x.1 ≠ a := by
        intro hEq
        refine hnd.1 ?_
        rw [hEq, ← hea]
        exact List.mem_map_of_mem Prod.fst het
      rw [if_neg hxa]
      have htail := ih hnd.2 e het hea hb
      omega

theorem findThingy_of_minimize_none (ps : Products) :
    findThingy (Products.minimize ps) = none :=
  minimizeLoop_fixpoint _ _ _ (minimize_eq_loop ps)

/-! ### The claims -/

/-- C1: for every database and symbol sets `lhs`, `rhs`,
`Products::implies(lhs, rhs, None)` returns true iff some finite sequence of
substitution steps starting from `lhs` — each replacing one member symbol
having a database entry by the symbols of one clause of that entry's
formula — reaches a set that is a subset of `rhs`; in particular it returns
true whenever `lhs` is already a subset of `rhs`. -/
theorem claim1_implies_iff_reaches (ps : Products) (lhs rhs : Clause) :
    (Products.implies ps lhs rhs none = true ↔
      ∃ t, Reaches ps lhs t ∧ t ⊆ rhs) ∧
    (lhs ⊆ rhs → Products.implies ps lhs rhs none = true) := by
  constructor
  · constructor
    · intro h
      obtain ⟨t, ht, hts⟩ := implies_sound h
      exact ⟨t, reaches_iff_none.mpr ht, hts⟩
    · rintro ⟨t, ht, hts⟩
      exact implies_complete (reaches_iff_none.mp ht) hts
  · intro h
    exact implies_complete Relation.ReflTransGen.refl h

theorem claim1_witness :
    (({1} : Clause) ⊆ {1, 2}) ∧
    Products.implies [(1, [{2}])] {1} {1, 2} none = true :=
  ⟨by decide, (claim1_implies_iff_reaches [(1, [{2}])] {1} {1, 2}).2 (by decide)⟩

/-- C2 counterexample: in the database `{1 ↦ [{2},{3}], 3 ↦ [{2}]}`,
minimization changes symbol 1's formula from `[{2},{3}]` to `[{3}]`; the
assignment making exactly symbol 3 true satisfies the minimized formula but
not the original, so the per-formula satisfying sets differ, refuting the
claim as stated. -/
theorem claim2_counterexample :
    Products.get (Products.minimize [(1, [{2}, {3}]), (3, [{2}])]) 1
      = some [{3}] ∧
    ¬ productSat (fun n => n == 3) [{2}, {3}] ∧
    productSat (fun n => n == 3) [{3}] := by
  decide

/-- C2 amended: minimization preserves the satisfying assignments of the
whole database — the assignments `v` such that `v` makes every entry's
formula true whenever it makes the entry's symbol true — though not the
satisfying assignments of each formula taken in isolation. -/
theorem claim2_database_semantics_preserved (ps : Products)
    (hnd : (ps.map Prod.fst).Nodup) (v : ℕ → Bool) :
    dbSat (Products.minimize ps) v ↔ dbSat ps v :=
  minimizeLoop_dbSat (totalClauses ps + 1) ps (Products.minimize ps) hnd
    (minimize_eq_loop ps) v

theorem claim2_witness :
    (([(1, [{2}, {3}]), (3, [{2}])] : Products).map Prod.fst).Nodup ∧
    ∀ v, (dbSat (Products.minimize [(1, [{2}, {3}]), (3, [{2}])]) v ↔
      dbSat [(1, [{2}, {3}]), (3, [{2}])] v) :=
  ⟨by decide, fun v => claim2_database_semantics_preserved _ (by decide) v⟩

/-- C3: minimize removes clauses one at a time, each removal being of a
clause the oracle — queried with the forbidden pair `(symbol, index)` —
reports implied, and when it returns, no `(symbol, clause index)` pair in
the database still queries true. -/
theorem claim3_minimize_fixed_point (ps : Products)
    (hnd : (ps.map Prod.fst).Nodup) :
    Relation.ReflTransGen MinStep ps (Products.minimize ps) ∧
    ∀ (a b : ℕ) (p : Product) (r : Clause),
      Products.get (Products.minimize ps) a = some p → p[b]? = some r →
      Products.implies (Products.minimize ps) {a} r (some (a, b)) = false := by
  refine ⟨minimizeLoop_chain _ _ _ hnd (minimize_eq_loop ps), ?_⟩
  intro a b p r hget hbr
  exact findThingy_none (findThingy_of_minimize_none ps) (a, p)
    (lookup_mem hget) b r hbr

theorem claim3_witness :
    ((([(1, [{2}, {3}]), (3, [{2}])] : Products).map Prod.fst).Nodup) ∧
    (Relation.ReflTransGen MinStep [(1, [{2}, {3}]), (3, [{2}])]
      (Products.minimize [(1, [{2}, {3}]), (3, [{2}])]) ∧
    ∀ (a b : ℕ) (p : Product) (r : Clause),
      Products.get (Products.minimize [(1, [{2}, {3}]), (3, [{2}])]) a
        = some p → p[b]? = some r →
      Products.implies (Products.minimize [(1, [{2}, {3}]), (3, [{2}])])
        {a} r (some (a, b)) = false) :=
  ⟨by decide, claim3_minimize_fixed_point _ (by decide)⟩

/-- C4 counterexample: expanding `{1}` against `rhs = ∅` in the database
`{1 ↦ [{2}]}` enqueues the child `{2}` even though symbol 2 is absent from
`rhs` and has no database entry; the claim says such a candidate is
discarded. -/
theorem claim4_counterexample :
    (({2} : Clause) ∈ (expand [(1, [{2}])] ∅ none {1} ({({1} : Clause)}, [])).2) ∧
    (2 : ℕ) ∈ ({2} : Clause) ∧ (2 : ℕ) ∉ (∅ : Clause) ∧
    Products.get [(1, [{2}])] 2 = none := by
  decide

/-- C4 amended: a child candidate is enqueued only if it has not been seen
before and it introduces no symbol that is both absent from `rhs_set` and
has a database entry whose formula has zero clauses (a symbol with no entry
at all is not discarded). -/
theorem claim4_enqueue_condition (ps : Products) (rhs : Clause)
    (d : Option (ℕ × ℕ)) (seen : Finset Clause) (heap : List Clause)
    (cur x : Clause) (hx : x ∈ (expand ps rhs d cur (seen, heap)).2) :
    x ∈ heap ∨ (x ∉ seen ∧ ∀ s ∈ x, s ∈ rhs ∨ ¬ hasEmptyEntry ps s = true) := by
  obtain ⟨-, -, -, -, h5⟩ :=
    foldl_push_spec ps rhs d (substChildren ps cur) (seen, heap)
  rcases h5 x hx with hx' | ⟨-, hnew⟩
  · exact Or.inl hx'
  · obtain ⟨hseen, hdead, -⟩ := hnew
    refine Or.inr ⟨hseen, ?_⟩
    intro s hs
    by_cases hsr : s ∈ rhs
    · exact Or.inl hsr
    · exact Or.inr fun hemp => hdead ⟨s, hs, hsr, hemp⟩

theorem claim4_witness :
    (({2} : Clause) ∈ (expand [(1, [{2}])] {2} none {1} ({({1} : Clause)}, [])).2) ∧
    (({2} : Clause) ∈ ([] : List Clause) ∨ (({2} : Clause) ∉ ({({1} : Clause)} : Finset Clause) ∧
      ∀ s ∈ ({2} : Clause), s ∈ ({2} : Clause) ∨
        ¬ hasEmptyEntry [(1, [{2}])] s = true)) :=
  ⟨by decide, claim4_enqueue_condition [(1, [{2}])] {2} none {({1} : Clause)} []
    {1} {2} (by decide)⟩

/-- C5 counterexample: the input `{10 ↦ node 10}` (a course requiring
itself) minimizes its symbol's formula to zero clauses, yet the top-level
minimize still emits the pair `(10, all [])` — a tree value — instead of
reporting an absent/`None` requirement; the output type has no absent
marker at all. -/
theorem claim5_counterexample :
    topMinimize [(10, STree.node 10)] = [(10, STree.all [])] ∧
    Products.get (Products.minimize (internAll ⟨[], 0⟩ [(10, STree.node 10)]).1) 1
      = some [] := by
  exact ⟨rfl, by decide⟩

/-- C5 amended: a name whose formula minimizes to zero clauses is still
emitted, paired with the tree `all []` (the conjunction of no clauses,
always satisfied); the function never omits the name and never produces an
absent marker. -/
theorem claim5_empty_formula_emitted (trees : List (ℕ × STree)) (sym : ℕ)
    (h : (sym, ([] : Product)) ∈ Products.minimize (internAll ⟨[], 0⟩ trees).1) :
    (invName (internAll ⟨[], 0⟩ trees).2 sym, STree.all []) ∈ topMinimize trees := by
  have hmem := List.mem_map_of_mem (fun e : ℕ × Product =>
    (invName (internAll ⟨[], 0⟩ trees).2 e.1,
      productToTree (internAll ⟨[], 0⟩ trees).2 e.2)) h
  simpa [topMinimize, productToTree] using hmem

theorem claim5_witness :
    ((1, ([] : Product)) ∈
      Products.minimize (internAll ⟨[], 0⟩ [(10, STree.node 10)]).1) ∧
    (invName (internAll ⟨[], 0⟩ [(10, STree.node 10)]).2 1, STree.all [])
      ∈ topMinimize [(10, STree.node 10)] :=
  ⟨by decide, claim5_empty_formula_emitted [(10, STree.node 10)] 1 (by decide)⟩

/-- C6: formula-level OR is the full cross-distribution — its clauses are
exactly the unions `a ∪ b` of a clause of the left and a clause of the
right; OR with the OR identity (the single empty clause) leaves the other
operand's clauses unchanged, and `[{1,2}] | [{2,3,4}] = [{1,2,3,4}]`. -/
theorem claim6_or_distribution :
    (∀ (p q : Product) (c : Clause),
      c ∈ prodOr p q ↔ ∃ a ∈ p, ∃ b ∈ q, c = a ∪ b) ∧
    (∀ q : Product, prodOr Product.orIdentity q = q) ∧
    (∀ p : Product, prodOr p Product.orIdentity = p) ∧
    prodOr [{1, 2}] [{2, 3, 4}] = [{1, 2, 3, 4}] :=
  ⟨fun _ _ _ => mem_prodOr, prodOr_orIdentity_left, prodOr_orIdentity_right,
    by decide⟩

/-- C7: the worklist search of `Products::implies` terminates with a boolean
on every database and every pair of symbol sets, cycles included: the fuel
`2 ^ |universe| + 1` (one more than the number of distinct reachable
candidate sets, each enqueued at most once thanks to `seen`) is never
exhausted. -/
theorem claim7_search_terminates (ps : Products) (lhs rhs : Clause)
    (d : Option (ℕ × ℕ)) : ∃ b, impliesO ps lhs rhs d = some b := by
  have h := impliesO_isSome_all ps lhs rhs d
  rcases hO : impliesO ps lhs rhs d with _ | b
  · rw [hO] at h
    cases h
  · exact ⟨b, rfl⟩

/-- C8: minimization only deletes whole clauses: every output formula is a
sublist of the input formula of the same symbol, so each surviving clause is
a clause of the input, no empty clause can appear that was not already
present, and both the clause count and the total symbol count are
non-increasing. -/
theorem claim8_only_whole_clause_removal (ps : Products) (sym : ℕ)
    (p' : Product) (h : Products.get (Products.minimize ps) sym = some p') :
    ∃ p, Products.get ps sym = some p ∧ List.Sublist p' p ∧
      (∀ c ∈ p', c ∈ p) ∧ p'.length ≤ p.length ∧
      (p'.map Finset.card).sum ≤ (p.map Finset.card).sum ∧
      (∅ ∈ p' → ∅ ∈ p) := by
  obtain ⟨p, hp, hsub⟩ := minimizeLoop_dbLe _ _ _ (minimize_eq_loop ps) sym p' h
  exact ⟨p, hp, hsub, fun c hc => hsub.mem hc, hsub.length_le,
    (hsub.map Finset.card).sum_le_sum (by simp), fun h0 => hsub.mem h0⟩

theorem claim8_witness :
    Products.get (Products.minimize [(1, [{1}])]) 1 = some [] ∧
    ∃ p, Products.get [(1, [{1}])] 1 = some p ∧ List.Sublist [] p ∧
      (∀ c ∈ ([] : Product), c ∈ p) ∧ ([] : Product).length ≤ p.length ∧
      (([] : Product).map Finset.card).sum ≤ (p.map Finset.card).sum ∧
      (∅ ∈ ([] : Product) → ∅ ∈ p) :=
  ⟨by decide, claim8_only_whole_clause_removal [(1, [{1}])] 1 [] (by decide)⟩

/-- C9: minimization is idempotent: minimizing an already minimized database
removes nothing and leaves every formula unchanged. -/
theorem claim9_minimize_idempotent (ps : Products) :
    Products.minimize (Products.minimize ps) = Products.minimize ps :=
  minimize_of_findThingy_none (findThingy_of_minimize_none ps)

/-- C10: the minimize loop terminates with no iteration cap needed: fuel
`totalClauses ps + 1` always suffices, because (with the map's keys unique,
as in a `HashMap`) each iteration removes exactly one clause, strictly
decreasing the total clause count. -/
theorem claim10_minimize_terminates (ps : Products)
    (hnd : (ps.map Prod.fst).Nodup) :
    (∃ qs, minimizeLoop (totalClauses ps + 1) ps = some qs) ∧
    ∀ ab : ℕ × ℕ, findThingy ps = some ab →
      totalClauses (removeClause ps ab.1 ab.2) + 1 = totalClauses ps := by
  constructor
  · have h := minimizeLoop_isSome (totalClauses ps + 1) ps (by omega)
    rcases hq : minimizeLoop (totalClauses ps + 1) ps with _ | q
    · rw [hq] at h
      cases h
    · exact ⟨q, rfl⟩
  · intro ab hab
    obtain ⟨e, he, hea, r, hbr, -⟩ := findThingy_spec hab
    exact totalClauses_removeClause_nodup hnd e he hea
      (List.getElem?_eq_some_iff.mp hbr).1

theorem claim10_witness :
    ((([(1, [{2}, {3}]), (3, [{2}])] : Products).map Prod.fst).Nodup) ∧
    ((∃ qs, minimizeLoop (totalClauses [(1, [{2}, {3}]), (3, [{2}])] + 1)
        [(1, [{2}, {3}]), (3, [{2}])] = some qs) ∧
    ∀ ab : ℕ × ℕ, findThingy [(1, [{2}, {3}]), (3, [{2}])] = some ab →
      totalClauses (removeClause [(1, [{2}, {3}]), (3, [{2}])] ab.1 ab.2) + 1
        = totalClauses [(1, [{2}, {3}]), (3, [{2}])]) :=
  ⟨by decide, claim10_minimize_terminates _ (by decide)⟩

end Cab
